import Mathlib

/-
Shallow embedding of `.github/workflows/find_and_copy_deps.py`.

The script discovers the transitive shared-library dependencies of a binary
with `ldd`, resolves each dependency against a list of search directories,
builds a dependency graph, computes its transitive closure and stages the
closure into an output directory (optionally emitting JSON and a manifest).

External collaborators (the filesystem, `os.path`, `sys.platform`, the raw
`ldd` output) are abstracted into an `Env` record of uninterpreted functions;
everything else is translated line by line from the source.  Python sets are
modelled as duplicate-free lists in insertion order (set iteration order in
Python is unspecified; the nondeterministic `set.pop` is modelled by an
arbitrary index-choosing function).  `sys.exit(1)` is modelled with `Except`:
an `.error` result aborts the whole run.
-/

/-- Characters removed by Python `str.strip()` (the ASCII whitespace range). -/
def isSpaceChar (c : Char) : Bool :=
  c == ' ' || c == '\t' || c == '\n' || c == '\r' || c == '\x0b' || c == '\x0c'

/-- Model of Python `str.strip()`. -/
def pythonStrip (s : String) : String :=
  String.mk (((s.data.dropWhile isSpaceChar).reverse.dropWhile isSpaceChar).reverse)

/-- ASCII lowering of one character; model of `str.lower()` on the ASCII range
that the script's skip patterns use. -/
def lowerChar (c : Char) : Char :=
  if 65 ≤ c.toNat ∧ c.toNat ≤ 90 then Char.ofNat (c.toNat + 32) else c

/-- Model of Python `str.lower()`. -/
def strLower (s : String) : String := String.mk (s.data.map lowerChar)

/-- Tests whether the second list is an initial segment of the first. -/
def startsWithL : List Char → List Char → Bool
  | _, [] => true
  | [], _ :: _ => false
  | a :: as, b :: bs => a == b && startsWithL as bs

/-- Model of the Python substring test `needle in hay`. -/
def strContains (hay needle : String) : Bool :=
  (List.range (hay.data.length + 1)).any (fun i => startsWithL (hay.data.drop i) needle.data)

/-- Model of Python `str.endswith`. -/
def endsWithStr (s suf : String) : Bool := startsWithL s.data.reverse suf.data.reverse

/-- Lexicographic code-point comparison; the order Python `sorted()` uses on `str`. -/
def lexLe : List Char → List Char → Bool
  | [], _ => true
  | _ :: _, [] => false
  | a :: as, b :: bs => if a = b then lexLe as bs else decide (a < b)

/-- Insertion step of the sort used to model Python `sorted()`. -/
def insertSorted (x : String) : List String → List String
  | [] => [x]
  | y :: ys => if lexLe x.data y.data then x :: y :: ys else y :: insertSorted x ys

/-- Model of Python `sorted()` on a collection of strings. -/
def sortStr (l : List String) : List String := l.foldr insertSorted []

/-- Model of Python `set.add`: sets are duplicate-free lists in insertion order. -/
def addIfNew {α : Type} [DecidableEq α] (l : List α) (x : α) : List α :=
  if x ∈ l then l else l ++ [x]

/-- Association-list lookup, modelling Python dict access `d[k]` and `k in d`. -/
def lookupA {α : Type} (m : List (String × α)) (k : String) : Option α :=
  (m.find? (fun p => p.1 == k)).map Prod.snd

/-- Keys of an association list, modelling `d.keys()`. -/
def keysOfA {α : Type} (m : List (String × α)) : List String := m.map Prod.fst

/-- Dict assignment `d[k] = v`: replaces an existing binding, else appends
(Python dicts preserve insertion order). -/
def updateA {α : Type} (m : List (String × α)) (k : String) (v : α) : List (String × α) :=
  if k ∈ keysOfA m then m.map (fun p => if p.1 = k then (k, v) else p) else m ++ [(k, v)]

/-- The script's external collaborators: raw `ldd` output per binary path,
the filesystem predicates and `os.path` functions it calls, `sys.platform`,
`cygpath` and the temporary directory.  All are uninterpreted. -/
structure Env where
  lddLines : String → List String
  pathExists : String → Bool
  isFile : String → Bool
  isDir : String → Bool
  sameFile : String → String → Bool
  joinPath : String → String → String
  basename : String → String
  dirname : String → String
  splitextStem : String → String
  platform : String
  cygpath : String → String
  tmpdir : String

/-- Translation of `fix_location`: on win32, absolute POSIX-style paths are
rewritten through `cygpath -m`; otherwise the path is returned unchanged. -/
def fix_location (env : Env) (location_path : String) : String :=
  if env.platform == "win32" && (location_path.data.head? == some '/')
  then env.cygpath location_path else location_path

/-- Translation of the `system_libs_to_skip` list set up in `get_deps_for_binary`:
populated on linux, empty on other platforms. -/
def system_libs_to_skip (platform : String) : List String :=
  if platform = "linux" then
    ["libc.so", "libdl.so", "libdrm.so", "libm.so", "libpthread.so", "libresolv.so",
     "libselinux.so", "libudev.so", "libGL.so", "libGLX.so", "libGLdispatch.so",
     "libX11.so", "libXau.so", "libXdmcp.so", "libXext.so", "libXfixes.so",
     "libXrender.so"]
  else []

/-- Exact model of matching `^([^ ]+) => ([^(]+)( (.*))?$` (Python `re.match`
with greedy backtracking) against one stripped line.  Group 1 is the maximal
nonempty run of non-space characters, which must be followed by literally
`" => "`.  Group 2 is the maximal nonempty `(`-free segment of the remainder
such that what follows is either nothing or a space and arbitrary text: if the
remainder has no `(` the whole remainder is group 2, otherwise group 2 ends at
the last space strictly before the first `(` (and the match fails if there is
no such space at index at least 1). -/
def matchLddLine (line : String) : Option (String × String) :=
  let cs := line.data
  let name := cs.takeWhile (fun c => c != ' ')
  if name.isEmpty then none
  else
    match cs.dropWhile (fun c => c != ' ') with
    | ' ' :: '=' :: '>' :: ' ' :: tail =>
      if tail.isEmpty then none
      else
        match tail.findIdx? (fun c => c == '(') with
        | none => some (String.mk name, String.mk tail)
        | some k =>
          if k = 0 then none
          else
            match ((List.range k).filter
                (fun j => decide (1 ≤ j) && (tail.getD j 'x' == ' '))).getLast? with
            | none => none
            | some j => some (String.mk name, String.mk (tail.take j))
    | _ => none

/-- Lines the parser's `else` branch ignores: virtual/dynamic-linker
pseudo-entries and the statically-linked marker. -/
def benignSkipLine (line : String) : Bool :=
  strContains line "linux-vdso.so.1" || strContains line "ld-linux-x86-64.so" ||
  strContains line "statically linked"

/-- The skip filter of `get_deps_for_binary`: self-reference, Windows system
directories (substring match on the lowered raw location), and the configured
platform system libraries (substring match on the raw location). -/
def skipEntry (my_name : String) (libsSkip : List String) (dep_name ldd_loc : String) : Bool :=
  (dep_name == my_name) ||
  strContains (strLower ldd_loc) "/c/windows/system" ||
  strContains (strLower ldd_loc) "/c/windows/winsxs/" ||
  (decide (0 < libsSkip.length) && libsSkip.any (fun lib => strContains ldd_loc lib))

/-- The location-resolution loop of `get_deps_for_binary`: the first search
directory containing an existing regular file named `dep_name` wins. -/
def resolveDep (env : Env) (dirs : List String) (dep_name : String) : Option String :=
  match dirs with
  | [] => none
  | x :: rest =>
    if env.pathExists (env.joinPath x dep_name) && env.isFile (env.joinPath x dep_name)
    then some (env.joinPath x dep_name)
    else resolveDep env rest dep_name

/-- Fatal message printed when ldd itself reported `not found`. -/
def msgNotFound (binary_path dep_name : String) : String :=
  binary_path ++ " depends on " ++ dep_name ++ " but ldd could not find its location."

/-- Fatal message printed when ldd found a location but the search directories
contain no copy. -/
def msgUpdatePath (dep_name ldd_loc : String) : String :=
  "Could not find " ++ dep_name ++ " in search path, but ldd found it at " ++ ldd_loc ++
  ". Please update search paths and run again.\n"

/-- Processing of one raw ldd output line inside `get_deps_for_binary`:
strip, match the entry pattern, filter, resolve, or abort fatally.
`.ok none` means the line contributes nothing; `.ok (some (n, loc))` is a
resolved dependency; `.error` models `sys.exit(1)`. -/
def processLine (env : Env) (my_name : String) (libsSkip : List String)
    (dirs : List String) (binary_path : String) (rawLine : String) :
    Except String (Option (String × String)) :=
  let line := pythonStrip rawLine
  match matchLddLine line with
  | some (dep_name, ldd_dep_location) =>
    if skipEntry my_name libsSkip dep_name ldd_dep_location then Except.ok none
    else
      match resolveDep env dirs dep_name with
      | some loc => Except.ok (some (dep_name, fix_location env loc))
      | none =>
        if ldd_dep_location = "not found"
        then Except.error (msgNotFound binary_path dep_name)
        else Except.error (msgUpdatePath dep_name ldd_dep_location)
  | none =>
    if benignSkipLine line then Except.ok none
    else Except.error ("Unexpected line in ldd output: " ++ line)

/-- The line loop of `get_deps_for_binary`, accumulating the `ret` set. -/
def depsLoop (env : Env) (my_name : String) (libsSkip : List String)
    (dirs : List String) (binary_path : String)
    (acc : List (String × String)) : List String → Except String (List (String × String))
  | [] => Except.ok acc
  | line :: rest =>
    match processLine env my_name libsSkip dirs binary_path line with
    | Except.error e => Except.error e
    | Except.ok none => depsLoop env my_name libsSkip dirs binary_path acc rest
    | Except.ok (some p) =>
        depsLoop env my_name libsSkip dirs binary_path (addIfNew acc p) rest

/-- Translation of `get_deps_for_binary`: reads ldd's output lines (stopping at
the first empty chunk, as `readline` does at end of stream), parses, filters
and resolves each, returning the set of `(name, fixed location)` pairs or
aborting fatally. -/
def get_deps_for_binary (env : Env) (binary_path : String) (search_directories : List String) :
    Except String (List (String × String)) :=
  depsLoop env (env.basename binary_path) (system_libs_to_skip env.platform)
    search_directories binary_path []
    ((env.lddLines binary_path).takeWhile (fun l => l != ""))

/-- The per-binary listing step of `main` (lines 173-175): push the directory
of the binary onto the search list, run `get_deps_for_binary`, pop.  The second
component is the state of the search-directory list when the step ends: on
success the `pop` has run; on a fatal abort `sys.exit(1)` propagates and the
`pop` never executes, so the pushed directory is still present. -/
def listDepsStep (env : Env) (binary_path : String) (search_directories : List String) :
    Except String (List (String × String)) × List String :=
  let pushed := search_directories ++ [env.dirname binary_path]
  match get_deps_for_binary env binary_path pushed with
  | Except.error e => (Except.error e, pushed)
  | Except.ok deps => (Except.ok deps, pushed.dropLast)

/-- The shape of the script's `json_dict`. -/
structure JsonDict where
  binary_deps : List (String × List String)
  binary_locations : List (String × String)
deriving DecidableEq

/-- Result of one run of the closure work loop. -/
inductive CResult where
  | ok (s : List String)
  | keyError
  | fuelOut
deriving DecidableEq

/-- The work-list loop of `get_all_deps_for_binary`.  `pick` chooses which
pending index to pop (Python pops the last element; the parameter models any
pop order).  `ret` is the accumulated set.  An element not in `ret` is added
and its edge list `bd[dep]` appended to the work list; a missing key there is
Python's unguarded dict lookup raising `KeyError`.  The fuel only bounds the
iteration count; `closureGoF_not_fuelOut` shows the default fuel suffices. -/
def closureGoF (bd : List (String × List String)) (pick : List String → Nat) :
    Nat → List String → List String → CResult
  | _, ret, [] => CResult.ok ret
  | 0, _, _ :: _ => CResult.fuelOut
  | fuel + 1, ret, x :: xs =>
    let l := x :: xs
    let i := min (pick l) (l.length - 1)
    let dep := l.getD i ""
    let rest := l.eraseIdx i
    if dep ∈ ret then closureGoF bd pick fuel ret rest
    else
      match lookupA bd dep with
      | none => CResult.keyError
      | some es => closureGoF bd pick fuel (ret ++ [dep]) (rest ++ es)

/-- Python-visible outcome of `get_all_deps_for_binary`: `None`, a set, or an
uncaught `KeyError` (plus the fuel artifact, excluded by the fuel bound). -/
inductive PyResult where
  | retNone
  | retSet (s : List String)
  | keyError
  | fuelOut
deriving DecidableEq

/-- Maximal edge-list length in the graph, used only to bound fuel. -/
def maxE (bd : List (String × List String)) : Nat :=
  bd.foldr (fun p acc => max p.2.length acc) 0

/-- Fuel sufficient for the closure loop to terminate (proved in
`closureGoF_not_fuelOut`). -/
def defaultFuel (jd : JsonDict) (key : String) : Nat :=
  (keysOfA jd.binary_deps).length * (maxE jd.binary_deps + 1) +
    ((lookupA jd.binary_deps key).getD []).length

/-- `get_all_deps_for_binary` generalized over the pop order and the fuel. -/
def closureRunWith (pick : List String → Nat) (fuel : Nat) (key : String) (jd : JsonDict) :
    PyResult :=
  match lookupA jd.binary_deps key with
  | none => PyResult.retNone
  | some es =>
    match closureGoF jd.binary_deps pick fuel [] es with
    | CResult.ok s => PyResult.retSet s
    | CResult.keyError => PyResult.keyError
    | CResult.fuelOut => PyResult.fuelOut

/-- Python's `list.pop()` removes the last element. -/
def popLastIdx : List String → Nat := fun l => l.length - 1

/-- Translation of `get_all_deps_for_binary`: `None` when the key is absent
from `binary_deps`, otherwise the work-list closure of the key's edge list,
popping from the end of the pending list. -/
def get_all_deps_for_binary (binary_key_name : String) (jd : JsonDict) : PyResult :=
  closureRunWith popLastIdx (defaultFuel jd binary_key_name) binary_key_name jd

/-- The edge relation of a dependency graph: `a` depends directly on `b`. -/
def EdgeOf (bd : List (String × List String)) (a b : String) : Prop :=
  ∃ es, lookupA bd a = some es ∧ b ∈ es

/-- Decidable check that every key named in an edge list is itself a key of
the map (the graph is closed under its own edge lists). -/
def ClosedB (bd : List (String × List String)) : Bool :=
  bd.all (fun p => p.2.all (fun d => decide (d ∈ keysOfA bd)))

/-- Edge targets of one key, empty for missing keys. -/
def targetsOfL (bd : List (String × List String)) (k : String) : List String :=
  (lookupA bd k).getD []

/-- Adds the members of the second list not already present. -/
def addNew {α : Type} [DecidableEq α] (s : List α) (xs : List α) : List α :=
  xs.foldl (fun acc x => addIfNew acc x) s

/-- One expansion step of bounded reachability. -/
def reachStep (bd : List (String × List String)) (s : List String) : List String :=
  s.foldl (fun acc k => addNew acc (targetsOfL bd k)) s

/-- Bounded reachability: expand `n` times. -/
def reachIter (bd : List (String × List String)) (s : List String) : Nat → List String
  | 0 => s
  | n + 1 => reachIter bd (reachStep bd s) n

/-- Decidable acyclicity: no key reaches itself through one or more edges
(every node on a cycle has an outgoing edge, hence is a key, so cycles are
detected within `(keysOfA bd).length` expansion rounds). -/
def AcyclicB (bd : List (String × List String)) : Bool :=
  (keysOfA bd).all
    (fun k => !(decide (k ∈ reachIter bd (targetsOfL bd k) (keysOfA bd).length)))

/-- Mutable state of `main`'s work-list traversal. -/
structure BuildState where
  locMap : List (String × String)
  binary_deps : List (String × List String)
  remaining : List String
  visited : List String
deriving DecidableEq

/-- Fatal conditions of `main`; every constructor corresponds to a
`sys.exit(1)` site (or, for `keyErrorMain`, an uncaught dict `KeyError`). -/
inductive RunError where
  | targetMissing
  | targetNotFile
  | outputNotDir
  | keyErrorMain
  | depsFatal (msg : String)
  | conflict (depName prevLoc newLoc : String)
deriving DecidableEq

/-- The inner `for (dep_name, dep_location) in dep_info_list` loop of `main`
(lines 177-188): grows the per-binary name set, records first locations,
aborts on a location conflict (`not os.path.samefile`), and queues unvisited
names.  State is `(deps_for_this_library, locMap, deps_remaining)`. -/
def processDeps (env : Env) (visited' : List String) :
    List (String × String) → List String × List (String × String) × List String →
    Except RunError (List String × List (String × String) × List String)
  | [], st => Except.ok st
  | (dep_name, dep_location) :: rest, (names, locMap, rem) =>
    let names' := addIfNew names dep_name
    let rem' := if dep_name ∈ visited' then rem else addIfNew rem dep_name
    match lookupA locMap dep_name with
    | none =>
        processDeps env visited' rest (names', locMap ++ [(dep_name, dep_location)], rem')
    | some prev =>
        if env.sameFile prev dep_location
        then processDeps env visited' rest (names', locMap, rem')
        else Except.error (RunError.conflict dep_name prev dep_location)

/-- One iteration of `main`'s `while len(deps_remaining) > 0` loop (165-194):
pop a pending key (at an arbitrary index chosen by `pick`), skip if visited,
otherwise list its dependencies, process them and record the sorted edge list. -/
def buildStep (env : Env) (pick : List String → Nat) (searchDirs : List String)
    (st : BuildState) : Except RunError BuildState :=
  let i := min (pick st.remaining) (st.remaining.length - 1)
  let x := st.remaining.getD i ""
  let remaining' := st.remaining.eraseIdx i
  if x ∈ st.visited then Except.ok { st with remaining := remaining' }
  else
    let visited' := st.visited ++ [x]
    match lookupA st.locMap x with
    | none => Except.error RunError.keyErrorMain
    | some xloc =>
      match (listDepsStep env xloc searchDirs).1 with
      | Except.error e => Except.error (RunError.depsFatal e)
      | Except.ok depInfo =>
        match processDeps env visited' depInfo ([], st.locMap, remaining') with
        | Except.error er => Except.error er
        | Except.ok (names, locMap', remaining'') =>
            Except.ok ⟨locMap', updateA st.binary_deps x (sortStr names),
              remaining'', visited'⟩

/-- The whole traversal loop, fuelled (the loop terminates on every real
filesystem; with a fully adversarial `Env` the name supply is unbounded, so
the model carries explicit fuel). -/
def buildLoop (env : Env) (pick : List String → Nat) (searchDirs : List String) :
    Nat → BuildState → Option (Except RunError BuildState)
  | 0, _ => none
  | fuel + 1, st =>
    if st.remaining = [] then some (Except.ok st)
    else
      match buildStep env pick searchDirs st with
      | Except.error e => some (Except.error e)
      | Except.ok st' => buildLoop env pick searchDirs fuel st'

/-- Parsed command line of the script. -/
structure Args where
  json : Option String
  manifest : Option String
  target_binary : String
  output_directory : String
  search_directories : List String

/-- The path actually passed to ldd: on win32 an `.ofx` plugin is first copied
into the temporary directory under a `.dll` name. -/
def lddPathFor (env : Env) (args : Args) : String :=
  if env.platform == "win32" && endsWithStr args.target_binary ".ofx"
  then env.joinPath env.tmpdir (env.splitextStem (env.basename args.target_binary) ++ ".dll")
  else args.target_binary

/-- Initial traversal state of `main` (lines 146-164). -/
def initState (env : Env) (args : Args) : BuildState :=
  { locMap := [(env.basename args.target_binary, lddPathFor env args)],
    binary_deps := [],
    remaining := [env.basename args.target_binary],
    visited := [] }

/-- Insertion step for sorting an association list by key. -/
def insertByKey {α : Type} (p : String × α) : List (String × α) → List (String × α)
  | [] => [p]
  | q :: qs => if lexLe p.1.data q.1.data then p :: q :: qs else q :: insertByKey p qs

/-- Key-sorting of an association list; models `json.dump(..., sort_keys=True)`
followed by parsing the document back into its two mappings. -/
def sortByKey {α : Type} (m : List (String × α)) : List (String × α) :=
  m.foldr insertByKey []

/-- The JSON document's content: both mappings of `json_dict`, keys sorted.
Serialization preserves the key-to-value mappings, so the deserialized
structure is the key-sorted dictionary pair. -/
def serializeJson (jd : JsonDict) : JsonDict :=
  ⟨sortByKey jd.binary_deps, sortByKey jd.binary_locations⟩

/-- Observable artifacts a run writes: file copies into the output directory
(source path and destination directory, in copy order), the JSON document,
and the manifest's file-name list. -/
structure RunOutputs where
  copies : List (String × String)
  jsonOut : Option JsonDict
  manifestOut : Option (List String)
deriving DecidableEq

/-- No artifacts produced. -/
def emptyOutputs : RunOutputs := ⟨[], none, none⟩

/-- Result of a whole run of `main`.  `exit1` is `sys.exit(1)` together with
the artifacts written before the exit; `crash` models an uncaught Python
exception after the loop (unreachable under the loop invariant). -/
inductive MainResult where
  | exit1 (err : RunError) (outs : RunOutputs)
  | success (outs : RunOutputs)
  | outOfFuel
  | crash
deriving DecidableEq

/-- Process exit code of a run, when it terminates. -/
def MainResult.exitCode : MainResult → Option Nat
  | MainResult.exit1 _ _ => some 1
  | MainResult.success _ => some 0
  | _ => none

/-- Translation of `main` (minus argv counting): validate the inputs, run the
traversal, then — only after the loop has fully succeeded — copy the sorted
closure into the output directory and write the optional JSON and manifest. -/
def runMain (env : Env) (pick : List String → Nat) (fuel : Nat) (args : Args) : MainResult :=
  if !(env.pathExists args.target_binary) then MainResult.exit1 RunError.targetMissing emptyOutputs
  else if !(env.isFile args.target_binary) then MainResult.exit1 RunError.targetNotFile emptyOutputs
  else if !(env.isDir args.output_directory) then MainResult.exit1 RunError.outputNotDir emptyOutputs
  else
    let binary_key := env.basename args.target_binary
    match buildLoop env pick args.search_directories fuel (initState env args) with
    | none => MainResult.outOfFuel
    | some (Except.error e) => MainResult.exit1 e emptyOutputs
    | some (Except.ok final) =>
      let jd : JsonDict := ⟨final.binary_deps, final.locMap⟩
      match get_all_deps_for_binary binary_key jd with
      | PyResult.retSet s =>
        match (sortStr s).mapM (fun x => lookupA final.locMap x) with
        | none => MainResult.crash
        | some srcs =>
          MainResult.success
            { copies := srcs.map (fun src => (src, args.output_directory)),
              jsonOut := if args.json.isSome then some (serializeJson jd) else none,
              manifestOut := if args.manifest.isSome then some (sortStr s) else none }
      | _ => MainResult.crash

/-- First half of the dependency-graph invariant: every key named in an edge
list of `binary_deps` is itself a key of `binary_deps` or is pending; every
key of `binary_deps` has a recorded location. -/
def DepsMapInvariant (st : BuildState) : Prop :=
  (∀ p ∈ st.binary_deps, ∀ d ∈ p.2, d ∈ keysOfA st.binary_deps ∨ d ∈ st.remaining) ∧
  (∀ k ∈ keysOfA st.binary_deps, k ∈ keysOfA st.locMap)

/-- Full loop invariant: the graph invariant plus the auxiliary facts that
pending keys have recorded locations and visited keys have recorded edges. -/
def LoopInvariant (st : BuildState) : Prop :=
  DepsMapInvariant st ∧ (∀ k ∈ st.remaining, k ∈ keysOfA st.locMap) ∧
  (∀ k ∈ st.visited, k ∈ keysOfA st.binary_deps)

/-- A benign environment: ldd reports no dependencies for any binary. -/
def env0 : Env :=
  { lddLines := fun _ => [], pathExists := fun _ => true, isFile := fun _ => true,
    isDir := fun _ => true, sameFile := fun _ _ => true,
    joinPath := fun a b => a ++ "/" ++ b, basename := fun s => s,
    dirname := fun _ => "D", splitextStem := fun s => s, platform := "linux",
    cygpath := fun s => s, tmpdir := "/tmp" }

/-- An environment whose ldd output has an unparseable line and whose
filesystem answers are all negative. -/
def envBad : Env :=
  { lddLines := fun _ => ["zzz"], pathExists := fun _ => false, isFile := fun _ => false,
    isDir := fun _ => false, sameFile := fun _ _ => false,
    joinPath := fun a b => a ++ "/" ++ b, basename := fun s => s,
    dirname := fun _ => "DIR", splitextStem := fun s => s, platform := "linux",
    cygpath := fun s => s, tmpdir := "/tmp" }

/-- A minimal command line. -/
def args0 : Args := ⟨none, none, "t", "out", []⟩

/-- Always pop index 0. -/
def pickZero : List String → Nat := fun _ => 0

/-- A two-node dependency cycle: a → b → a. -/
def jdCyc : JsonDict := ⟨[("a", ["b"]), ("b", ["a"])], []⟩

/-- An acyclic two-node graph: a → b. -/
def jdAcyc : JsonDict := ⟨[("a", ["b"]), ("b", [])], []⟩

/-! ### List and association-list lemmas -/

theorem mem_addIfNew {α : Type} [DecidableEq α] (l : List α) (a x : α) :
    x ∈ addIfNew l a ↔ x ∈ l ∨ x = a := by
  unfold addIfNew
  split
  · rename_i h
    constructor
    · exact Or.inl
    · rintro (hx | rfl)
      · exact hx
      · exact h
  · simp [List.mem_append]

theorem getD_mem_of_lt : ∀ (l : List String) (i : Nat), i < l.length → l.getD i "" ∈ l := by
  intro l
  induction l with
  | nil => intro i h; simp at h
  | cons a as ih =>
    intro i h
    cases i with
    | zero => simp
    | succ n =>
      simp only [List.getD_cons_succ]
      exact List.mem_cons_of_mem _ (ih n (by simp at h; omega))

theorem mem_of_mem_eraseIdx' : ∀ (l : List String) (i : Nat) (k : String),
    k ∈ l.eraseIdx i → k ∈ l := by
  intro l
  induction l with
  | nil => intro i k h; simp [List.eraseIdx] at h
  | cons a as ih =>
    intro i k h
    cases i with
    | zero =>
      simp only [List.eraseIdx] at h
      exact List.mem_cons_of_mem _ h
    | succ n =>
      simp only [List.eraseIdx, List.mem_cons] at h
      rcases h with h | h
      · exact h ▸ List.mem_cons_self _ _
      · exact List.mem_cons_of_mem _ (ih n k h)

theorem mem_getD_or_eraseIdx : ∀ (l : List String) (i : Nat) (k : String),
    i < l.length → k ∈ l → k = l.getD i "" ∨ k ∈ l.eraseIdx i := by
  intro l
  induction l with
  | nil => intro i k h; simp at h
  | cons a as ih =>
    intro i k hi hk
    cases i with
    | zero =>
      simp only [List.getD_cons_zero, List.eraseIdx]
      exact List.mem_cons.mp hk
    | succ n =>
      simp only [List.getD_cons_succ, List.eraseIdx, List.mem_cons]
      rcases List.mem_cons.mp hk with h | h
      · exact Or.inr (Or.inl h)
      · rcases ih n k (by simp at hi; omega) h with h' | h'
        · exact Or.inl h'
        · exact Or.inr (Or.inr h')

theorem length_eraseIdx' : ∀ (l : List String) (i : Nat), i < l.length →
    (l.eraseIdx i).length = l.length - 1 := by
  intro l
  induction l with
  | nil => intro i h; simp at h
  | cons a as ih =>
    intro i hi
    cases i with
    | zero => simp [List.eraseIdx]
    | succ n =>
      simp only [List.eraseIdx, List.length_cons]
      rw [ih n (by simp at hi; omega)]
      simp at hi
      omega

theorem min_pick_lt (pick : List String → Nat) (x : String) (xs : List String) :
    min (pick (x :: xs)) ((x :: xs).length - 1) < (x :: xs).length := by
  simp only [List.length_cons]
  omega

theorem keysOfA_cons {α : Type} (p : String × α) (rest : List (String × α)) :
    keysOfA (p :: rest) = p.1 :: keysOfA rest := rfl

theorem keysOfA_append {α : Type} (m₁ m₂ : List (String × α)) :
    keysOfA (m₁ ++ m₂) = keysOfA m₁ ++ keysOfA m₂ := by
  simp [keysOfA]

theorem lookupA_cons {α : Type} (p : String × α) (rest : List (String × α)) (k : String) :
    lookupA (p :: rest) k = if p.1 = k then some p.2 else lookupA rest k := by
  unfold lookupA
  by_cases hp : p.1 = k
  · rw [List.find?_cons_of_pos _ (by simp [hp])]
    simp [hp]
  · rw [List.find?_cons_of_neg _ (by simp [hp])]
    simp [hp]

theorem lookupA_mem {α : Type} {m : List (String × α)} {k : String} {v : α}
    (h : lookupA m k = some v) : (k, v) ∈ m := by
  induction m with
  | nil => simp [lookupA] at h
  | cons p rest ih =>
    rw [lookupA_cons] at h
    split at h
    · rename_i hp
      have hv : p.2 = v := by simpa using h
      have : p = (k, v) := by
        cases p
        simp_all
      exact this ▸ List.mem_cons_self _ _
    · exact List.mem_cons_of_mem _ (ih h)

theorem lookupA_mem_keys {α : Type} {m : List (String × α)} {k : String} {v : α}
    (h : lookupA m k = some v) : k ∈ keysOfA m := by
  have hm := lookupA_mem h
  simp only [keysOfA, List.mem_map]
  exact ⟨(k, v), hm, rfl⟩

theorem lookupA_isSome_of_mem_keys {α : Type} {m : List (String × α)} {k : String}
    (h : k ∈ keysOfA m) : ∃ v, lookupA m k = some v := by
  induction m with
  | nil => simp [keysOfA] at h
  | cons p rest ih =>
    rw [lookupA_cons]
    by_cases hp : p.1 = k
    · exact ⟨p.2, by simp [hp]⟩
    · rw [keysOfA_cons, List.mem_cons] at h
      rcases h with h | h
      · exact absurd h.symm hp
      · rcases ih h with ⟨v, hv⟩
        exact ⟨v, by simp [hp, hv]⟩

theorem lookupA_eq_none_iff {α : Type} {m : List (String × α)} {k : String} :
    lookupA m k = none ↔ k ∉ keysOfA m := by
  constructor
  · intro h hk
    rcases lookupA_isSome_of_mem_keys hk with ⟨v, hv⟩
    rw [h] at hv
    exact absurd hv (by simp)
  · intro hk
    cases hv : lookupA m k with
    | none => rfl
    | some v => exact absurd (lookupA_mem_keys hv) hk

theorem lookupA_of_mem_nodup {α : Type} {m : List (String × α)} {k : String} {v : α}
    (hnd : (keysOfA m).Nodup) (hm : (k, v) ∈ m) : lookupA m k = some v := by
  induction m with
  | nil => simp at hm
  | cons q rest ih =>
    rw [keysOfA_cons, List.nodup_cons] at hnd
    rw [lookupA_cons]
    rcases List.mem_cons.mp hm with h | h
    · rw [← h]
      simp
    · split
      · rename_i hq
        exfalso
        apply hnd.1
        have hk : k ∈ keysOfA rest := by
          simp only [keysOfA, List.mem_map]
          exact ⟨(k, v), h, rfl⟩
        rw [hq]
        exact hk
      · exact ih hnd.2 h

theorem closedB_spec {bd : List (String × List String)} (h : ClosedB bd = true)
    {k : String} {es : List String} {d : String}
    (hk : lookupA bd k = some es) (hd : d ∈ es) : d ∈ keysOfA bd := by
  have hm := lookupA_mem hk
  unfold ClosedB at h
  rw [List.all_eq_true] at h
  have h2 := h _ hm
  rw [List.all_eq_true] at h2
  simpa using h2 d hd

theorem mem_insertSorted {x y : String} {l : List String} :
    y ∈ insertSorted x l ↔ y = x ∨ y ∈ l := by
  induction l with
  | nil => simp [insertSorted]
  | cons a as ih =>
    unfold insertSorted
    split
    · simp [List.mem_cons]
    · simp only [List.mem_cons, ih]
      tauto

theorem mem_sortStr {y : String} {l : List String} : y ∈ sortStr l ↔ y ∈ l := by
  induction l with
  | nil => simp [sortStr]
  | cons a as ih =>
    show y ∈ insertSorted a (sortStr as) ↔ _
    rw [mem_insertSorted, ih]
    simp [List.mem_cons]

theorem keysOfA_map_update {α : Type} (m : List (String × α)) (k : String) (v : α) :
    keysOfA (m.map (fun p => if p.1 = k then (k, v) else p)) = keysOfA m := by
  induction m with
  | nil => rfl
  | cons p rest ih =>
    simp only [List.map_cons, keysOfA_cons, ih]
    by_cases hp : p.1 = k
    · simp [hp]
    · simp [hp]

theorem mem_keys_updateA_self {α : Type} (m : List (String × α)) (k : String) (v : α) :
    k ∈ keysOfA (updateA m k v) := by
  unfold updateA
  split
  · rename_i h
    rw [keysOfA_map_update]
    exact h
  · rw [keysOfA_append]
    simp [keysOfA]

theorem mem_keys_updateA_of_mem {α : Type} {m : List (String × α)} {x k : String} {v : α}
    (h : x ∈ keysOfA m) : x ∈ keysOfA (updateA m k v) := by
  unfold updateA
  split
  · rw [keysOfA_map_update]
    exact h
  · rw [keysOfA_append]
    exact List.mem_append_left _ h

theorem mem_keys_updateA_cases {α : Type} {m : List (String × α)} {x k : String} {v : α}
    (h : x ∈ keysOfA (updateA m k v)) : x ∈ keysOfA m ∨ x = k := by
  unfold updateA at h
  split at h
  · rw [keysOfA_map_update] at h
    exact Or.inl h
  · rw [keysOfA_append] at h
    simpa [keysOfA] using List.mem_append.mp h

/-! ### Closure work-loop lemmas -/

theorem closureGoF_succ (bd : List (String × List String)) (pick : List String → Nat)
    (fuel : Nat) (ret : List String) (x : String) (xs : List String) :
    closureGoF bd pick (fuel + 1) ret (x :: xs) =
      if (x :: xs).getD (min (pick (x :: xs)) ((x :: xs).length - 1)) "" ∈ ret then
        closureGoF bd pick fuel ret
          ((x :: xs).eraseIdx (min (pick (x :: xs)) ((x :: xs).length - 1)))
      else
        match lookupA bd ((x :: xs).getD (min (pick (x :: xs)) ((x :: xs).length - 1)) "") with
        | none => CResult.keyError
        | some es =>
            closureGoF bd pick fuel
              (ret ++ [(x :: xs).getD (min (pick (x :: xs)) ((x :: xs).length - 1)) ""])
              ((x :: xs).eraseIdx (min (pick (x :: xs)) ((x :: xs).length - 1)) ++ es) := rfl

theorem lookupA_length_le_maxE {bd : List (String × List String)} {k : String}
    {es : List String} (h : lookupA bd k = some es) : es.length ≤ maxE bd := by
  have hm := lookupA_mem h
  clear h
  induction bd with
  | nil => simp at hm
  | cons p rest ih =>
    show es.length ≤ max p.2.length (maxE rest)
    rcases List.mem_cons.mp hm with h | h
    · cases h
      exact le_max_left _ _
    · exact le_trans (ih h) (le_max_right _ _)

theorem closureGoF_not_fuelOut :
    ∀ (bd : List (String × List String)) (pick : List String → Nat) (fuel : Nat)
      (ret l : List String),
      ((keysOfA bd).toFinset \ ret.toFinset).card * (maxE bd + 1) + l.length ≤ fuel →
      closureGoF bd pick fuel ret l ≠ CResult.fuelOut := by
  intro bd pick fuel
  induction fuel with
  | zero =>
    intro ret l hm
    cases l with
    | nil => simp [closureGoF]
    | cons x xs =>
      exfalso
      simp [List.length_cons] at hm
  | succ fuel ih =>
    intro ret l hm
    cases l with
    | nil => simp [closureGoF]
    | cons x xs =>
      rw [closureGoF_succ]
      set i := min (pick (x :: xs)) ((x :: xs).length - 1) with hidef
      have hi : i < (x :: xs).length := min_pick_lt pick x xs
      set dep := (x :: xs).getD i "" with hdepdef
      set rest := (x :: xs).eraseIdx i with hrestdef
      have hlen : rest.length = (x :: xs).length - 1 := length_eraseIdx' _ _ hi
      by_cases hmem : dep ∈ ret
      · rw [if_pos hmem]
        apply ih
        generalize hP : ((keysOfA bd).toFinset \ ret.toFinset).card * (maxE bd + 1) = P at hm ⊢
        simp only [List.length_cons] at hm hlen
        omega
      · rw [if_neg hmem]
        cases hlk : lookupA bd dep with
        | none => simp
        | some es =>
          apply ih
          have hdk : dep ∈ (keysOfA bd).toFinset := by
            rw [List.mem_toFinset]
            exact lookupA_mem_keys hlk
          have hdnr : dep ∉ ret.toFinset := by
            rw [List.mem_toFinset]
            exact hmem
          have hsd : dep ∈ (keysOfA bd).toFinset \ ret.toFinset :=
            Finset.mem_sdiff.mpr ⟨hdk, hdnr⟩
          have hft : (ret ++ [dep]).toFinset = insert dep ret.toFinset := by
            rw [List.toFinset_append]
            simp [Finset.union_comm, Finset.insert_eq]
          have hcard : ((keysOfA bd).toFinset \ (ret ++ [dep]).toFinset).card
              = ((keysOfA bd).toFinset \ ret.toFinset).card - 1 := by
            rw [hft]
            have hse : (keysOfA bd).toFinset \ insert dep ret.toFinset
                = ((keysOfA bd).toFinset \ ret.toFinset).erase dep := by
              ext a
              simp only [Finset.mem_sdiff, Finset.mem_erase, Finset.mem_insert]
              tauto
            rw [hse, Finset.card_erase_of_mem hsd]
          have hpos : 0 < ((keysOfA bd).toFinset \ ret.toFinset).card :=
            Finset.card_pos.mpr ⟨dep, hsd⟩
          have hE : es.length ≤ maxE bd := lookupA_length_le_maxE hlk
          rw [List.length_append, hcard]
          obtain ⟨c', hc'⟩ : ∃ c', ((keysOfA bd).toFinset \ ret.toFinset).card = c' + 1 :=
            ⟨((keysOfA bd).toFinset \ ret.toFinset).card - 1, by omega⟩
          rw [hc'] at hm ⊢
          have hmul : (c' + 1) * (maxE bd + 1) = c' * (maxE bd + 1) + (maxE bd + 1) := by ring
          rw [hmul] at hm
          simp only [Nat.add_sub_cancel]
          generalize hQ : c' * (maxE bd + 1) = Q at hm ⊢
          simp only [List.length_cons] at hm hlen
          omega

theorem closureGoF_sound :
    ∀ (bd : List (String × List String)) (pick : List String → Nat) (fuel : Nat)
      (ret l s : List String),
      closureGoF bd pick fuel ret l = CResult.ok s →
      ∀ k ∈ s, k ∈ ret ∨ ∃ d ∈ l, d = k ∨ Relation.TransGen (EdgeOf bd) d k := by
  intro bd pick fuel
  induction fuel with
  | zero =>
    intro ret l s h k hk
    cases l with
    | nil =>
      simp [closureGoF] at h
      subst h
      exact Or.inl hk
    | cons x xs => simp [closureGoF] at h
  | succ fuel ih =>
    intro ret l s h k hk
    cases l with
    | nil =>
      simp [closureGoF] at h
      subst h
      exact Or.inl hk
    | cons x xs =>
      rw [closureGoF_succ] at h
      set i := min (pick (x :: xs)) ((x :: xs).length - 1) with hidef
      have hi : i < (x :: xs).length := min_pick_lt pick x xs
      set dep := (x :: xs).getD i "" with hdepdef
      set rest := (x :: xs).eraseIdx i with hrestdef
      have hdm : dep ∈ (x :: xs) := getD_mem_of_lt _ _ hi
      by_cases hmem : dep ∈ ret
      · rw [if_pos hmem] at h
        rcases ih ret rest s h k hk with h' | ⟨d, hd, hdk⟩
        · exact Or.inl h'
        · exact Or.inr ⟨d, mem_of_mem_eraseIdx' _ _ _ hd, hdk⟩
      · rw [if_neg hmem] at h
        cases hlk : lookupA bd dep with
        | none =>
          rw [hlk] at h
          simp at h
        | some es =>
          rw [hlk] at h
          rcases ih _ _ s h k hk with h' | ⟨d, hd, hdk⟩
          · rcases List.mem_append.mp h' with h'' | h''
            · exact Or.inl h''
            · have hkd : k = dep := by simpa using h''
              exact Or.inr ⟨dep, hdm, Or.inl hkd.symm⟩
          · rcases List.mem_append.mp hd with hr | he
            · exact Or.inr ⟨d, mem_of_mem_eraseIdx' _ _ _ hr, hdk⟩
            · have hedge : EdgeOf bd dep d := ⟨es, hlk, he⟩
              rcases hdk with rfl | htg
              · exact Or.inr ⟨dep, hdm, Or.inr (Relation.TransGen.single hedge)⟩
              · exact Or.inr ⟨dep, hdm, Or.inr (Relation.TransGen.head hedge htg)⟩

theorem closureGoF_ok_props :
    ∀ (bd : List (String × List String)) (pick : List String → Nat) (fuel : Nat)
      (ret l s : List String),
      (∀ d ∈ ret, ∀ es, lookupA bd d = some es → ∀ k ∈ es, k ∈ ret ∨ k ∈ l) →
      (∀ d ∈ ret, d ∈ keysOfA bd) →
      closureGoF bd pick fuel ret l = CResult.ok s →
      (∀ d ∈ ret, d ∈ s) ∧ (∀ d ∈ l, d ∈ s) ∧
      (∀ d ∈ s, ∀ es, lookupA bd d = some es → ∀ k ∈ es, k ∈ s) ∧
      (∀ d ∈ s, d ∈ keysOfA bd) := by
  intro bd pick fuel
  induction fuel with
  | zero =>
    intro ret l s hinv hkeys h
    cases l with
    | nil =>
      simp [closureGoF] at h
      subst h
      refine ⟨fun d hd => hd, fun d hd => absurd hd (List.not_mem_nil d), ?_, hkeys⟩
      intro d hd es hes k hk
      rcases hinv d hd es hes k hk with h' | h'
      · exact h'
      · exact absurd h' (List.not_mem_nil k)
    | cons x xs => simp [closureGoF] at h
  | succ fuel ih =>
    intro ret l s hinv hkeys h
    cases l with
    | nil =>
      simp [closureGoF] at h
      subst h
      refine ⟨fun d hd => hd, fun d hd => absurd hd (List.not_mem_nil d), ?_, hkeys⟩
      intro d hd es hes k hk
      rcases hinv d hd es hes k hk with h' | h'
      · exact h'
      · exact absurd h' (List.not_mem_nil k)
    | cons x xs =>
      rw [closureGoF_succ] at h
      set i := min (pick (x :: xs)) ((x :: xs).length - 1) with hidef
      have hi : i < (x :: xs).length := min_pick_lt pick x xs
      set dep := (x :: xs).getD i "" with hdepdef
      set rest := (x :: xs).eraseIdx i with hrestdef
      have hdm : dep ∈ (x :: xs) := getD_mem_of_lt _ _ hi
      by_cases hmem : dep ∈ ret
      · rw [if_pos hmem] at h
        have hinv' : ∀ d ∈ ret, ∀ es, lookupA bd d = some es → ∀ k ∈ es, k ∈ ret ∨ k ∈ rest := by
          intro d hd es hes k hk
          rcases hinv d hd es hes k hk with h' | h'
          · exact Or.inl h'
          · rcases mem_getD_or_eraseIdx _ _ _ hi h' with heq | hr
            · exact Or.inl (heq ▸ hmem)
            · exact Or.inr hr
        obtain ⟨P1, P2, P3, P4⟩ := ih ret rest s hinv' hkeys h
        refine ⟨P1, ?_, P3, P4⟩
        intro d hd
        rcases mem_getD_or_eraseIdx _ _ _ hi hd with heq | hr
        · exact P1 _ (heq ▸ hmem)
        · exact P2 _ hr
      · rw [if_neg hmem] at h
        cases hlk : lookupA bd dep with
        | none =>
          rw [hlk] at h
          simp at h
        | some es =>
          rw [hlk] at h
          have hinv' : ∀ d ∈ ret ++ [dep], ∀ es₂, lookupA bd d = some es₂ →
              ∀ k ∈ es₂, k ∈ ret ++ [dep] ∨ k ∈ rest ++ es := by
            intro d hd es₂ hes₂ k hk
            rcases List.mem_append.mp hd with hdr | hdd
            · rcases hinv d hdr es₂ hes₂ k hk with h' | h'
              · exact Or.inl (List.mem_append_left _ h')
              · rcases mem_getD_or_eraseIdx _ _ _ hi h' with heq | hr
                · exact Or.inl (List.mem_append_right _
                    (by rw [heq.trans hdepdef.symm]; simp))
                · exact Or.inr (List.mem_append_left _ hr)
            · have hdd' : d = dep := by simpa using hdd
              subst hdd'
              rw [hlk] at hes₂
              have h2 : es = es₂ := by injection hes₂
              subst h2
              exact Or.inr (List.mem_append_right _ hk)
          have hkeys' : ∀ d ∈ ret ++ [dep], d ∈ keysOfA bd := by
            intro d hd
            rcases List.mem_append.mp hd with hdr | hdd
            · exact hkeys d hdr
            · have hdd' : d = dep := by simpa using hdd
              exact hdd' ▸ lookupA_mem_keys hlk
          obtain ⟨P1, P2, P3, P4⟩ := ih _ _ s hinv' hkeys' h
          refine ⟨?_, ?_, P3, P4⟩
          · intro d hd
            exact P1 _ (List.mem_append_left _ hd)
          · intro d hd
            rcases mem_getD_or_eraseIdx _ _ _ hi hd with heq | hr
            · exact P1 _ (List.mem_append_right _ (by rw [heq.trans hdepdef.symm]; simp))
            · exact P2 _ (List.mem_append_left _ hr)

theorem closureGoF_not_keyError :
    ∀ (bd : List (String × List String)) (pick : List String → Nat) (fuel : Nat)
      (ret l : List String),
      ClosedB bd = true → (∀ k ∈ l, k ∈ keysOfA bd) →
      closureGoF bd pick fuel ret l ≠ CResult.keyError := by
  intro bd pick fuel
  induction fuel with
  | zero =>
    intro ret l hc hl
    cases l <;> simp [closureGoF]
  | succ fuel ih =>
    intro ret l hc hl
    cases l with
    | nil => simp [closureGoF]
    | cons x xs =>
      rw [closureGoF_succ]
      set i := min (pick (x :: xs)) ((x :: xs).length - 1) with hidef
      have hi : i < (x :: xs).length := min_pick_lt pick x xs
      set dep := (x :: xs).getD i "" with hdepdef
      set rest := (x :: xs).eraseIdx i with hrestdef
      have hdm : dep ∈ (x :: xs) := getD_mem_of_lt _ _ hi
      by_cases hmem : dep ∈ ret
      · rw [if_pos hmem]
        exact ih ret rest hc (fun k hk => hl k (mem_of_mem_eraseIdx' _ _ _ hk))
      · rw [if_neg hmem]
        cases hlk : lookupA bd dep with
        | none =>
          rcases lookupA_isSome_of_mem_keys (hl _ hdm) with ⟨v, hv⟩
          rw [hv] at hlk
          simp at hlk
        | some es =>
          apply ih _ _ hc
          intro k hk
          rcases List.mem_append.mp hk with h1 | h2
          · exact hl k (mem_of_mem_eraseIdx' _ _ _ h1)
          · exact closedB_spec hc hlk h2

theorem closureGoF_mem_reach {bd : List (String × List String)} {pick : List String → Nat}
    {fuel : Nat} {root : String} {es s : List String}
    (hroot : lookupA bd root = some es)
    (h : closureGoF bd pick fuel [] es = CResult.ok s) :
    ∀ k ∈ s, Relation.TransGen (EdgeOf bd) root k := by
  intro k hk
  rcases closureGoF_sound bd pick fuel [] es s h k hk with h0 | ⟨d, hd, hdk⟩
  · exact absurd h0 (List.not_mem_nil k)
  · have hedge : EdgeOf bd root d := ⟨es, hroot, hd⟩
    rcases hdk with rfl | htg
    · exact Relation.TransGen.single hedge
    · exact Relation.TransGen.head hedge htg

theorem closureGoF_reach_mem {bd : List (String × List String)} {pick : List String → Nat}
    {fuel : Nat} {root : String} {es s : List String}
    (hroot : lookupA bd root = some es)
    (h : closureGoF bd pick fuel [] es = CResult.ok s) :
    ∀ k, Relation.TransGen (EdgeOf bd) root k → k ∈ s := by
  obtain ⟨P1, P2, P3, P4⟩ := closureGoF_ok_props bd pick fuel [] es s
    (by intro d hd; exact absurd hd (List.not_mem_nil d))
    (by intro d hd; exact absurd hd (List.not_mem_nil d)) h
  intro k hk
  induction hk with
  | single h1 =>
    rcases h1 with ⟨es₂, hl2, hb⟩
    rw [hroot] at hl2
    have h2 : es = es₂ := by injection hl2
    subst h2
    exact P2 _ hb
  | tail hab hbc ih =>
    rcases hbc with ⟨es₃, hl3, hc⟩
    exact P3 _ ih es₃ hl3 _ hc

theorem closureRun_char {jd : JsonDict} {root : String} {es : List String}
    (hc : ClosedB jd.binary_deps = true)
    (hroot : lookupA jd.binary_deps root = some es) :
    ∀ (pick : List String → Nat) (fuel : Nat), defaultFuel jd root ≤ fuel →
      ∃ s, closureRunWith pick fuel root jd = PyResult.retSet s ∧
        ∀ k, k ∈ s ↔ Relation.TransGen (EdgeOf jd.binary_deps) root k := by
  intro pick fuel hf
  have hmeas : ((keysOfA jd.binary_deps).toFinset \ ([] : List String).toFinset).card *
      (maxE jd.binary_deps + 1) + es.length ≤ fuel := by
    have h1 : ((keysOfA jd.binary_deps).toFinset \ ([] : List String).toFinset).card
        ≤ (keysOfA jd.binary_deps).length := by
      simp only [List.toFinset_nil, Finset.sdiff_empty]
      exact List.toFinset_card_le _
    have h2 : defaultFuel jd root = (keysOfA jd.binary_deps).length *
        (maxE jd.binary_deps + 1) + es.length := by
      unfold defaultFuel
      rw [hroot]
      rfl
    calc ((keysOfA jd.binary_deps).toFinset \ ([] : List String).toFinset).card *
          (maxE jd.binary_deps + 1) + es.length
        ≤ (keysOfA jd.binary_deps).length * (maxE jd.binary_deps + 1) + es.length := by
          exact Nat.add_le_add_right (Nat.mul_le_mul_right _ h1) _
      _ = defaultFuel jd root := h2.symm
      _ ≤ fuel := hf
  have hnf := closureGoF_not_fuelOut jd.binary_deps pick fuel [] es hmeas
  have hnk := closureGoF_not_keyError jd.binary_deps pick fuel [] es hc
    (fun k hk => closedB_spec hc hroot hk)
  cases hres : closureGoF jd.binary_deps pick fuel [] es with
  | fuelOut => exact absurd hres hnf
  | keyError => exact absurd hres hnk
  | ok s =>
    refine ⟨s, ?_, ?_⟩
    · simp only [closureRunWith, hroot, hres]
    · intro k
      exact ⟨closureGoF_mem_reach hroot hres k, closureGoF_reach_mem hroot hres k⟩

/-! ### Serialization (key-sorting) lemmas -/

theorem perm_insertByKey {α : Type} (p : String × α) :
    ∀ l : List (String × α), List.Perm (insertByKey p l) (p :: l) := by
  intro l
  induction l with
  | nil => simp [insertByKey]
  | cons q qs ih =>
    unfold insertByKey
    split
    · exact List.Perm.refl _
    · exact List.Perm.trans (List.Perm.cons q ih) (List.Perm.swap p q qs)

theorem perm_sortByKey {α : Type} : ∀ m : List (String × α), List.Perm (sortByKey m) m := by
  intro m
  induction m with
  | nil => simp [sortByKey]
  | cons p ps ih =>
    show List.Perm (insertByKey p (sortByKey ps)) (p :: ps)
    exact List.Perm.trans (perm_insertByKey p _) (List.Perm.cons p ih)

theorem lookupA_perm_nodup {α : Type} {m₁ m₂ : List (String × α)}
    (hperm : List.Perm m₁ m₂) (hnd : (keysOfA m₂).Nodup) :
    ∀ k, lookupA m₁ k = lookupA m₂ k := by
  intro k
  cases h1 : lookupA m₁ k with
  | some v =>
    have hm : (k, v) ∈ m₂ := hperm.mem_iff.mp (lookupA_mem h1)
    exact (lookupA_of_mem_nodup hnd hm).symm
  | none =>
    have hk1 : k ∉ keysOfA m₁ := lookupA_eq_none_iff.mp h1
    have hk2 : k ∉ keysOfA m₂ := fun h => hk1 ((hperm.map Prod.fst).mem_iff.mpr h)
    exact (lookupA_eq_none_iff.mpr hk2).symm

theorem maxE_perm {m₁ m₂ : List (String × List String)} (h : List.Perm m₁ m₂) :
    maxE m₁ = maxE m₂ := by
  induction h with
  | nil => rfl
  | cons p hp ih =>
    rename_i l₁ l₂
    show max p.2.length (maxE l₁) = max p.2.length (maxE l₂)
    rw [ih]
  | swap p q l =>
    show max q.2.length (max p.2.length (maxE l)) = max p.2.length (max q.2.length (maxE l))
    rw [← max_assoc, max_comm q.2.length p.2.length, max_assoc]
  | trans _ _ ih1 ih2 => exact ih1.trans ih2

theorem closureGoF_congr {bd₁ bd₂ : List (String × List String)}
    (h : ∀ k, lookupA bd₁ k = lookupA bd₂ k) :
    ∀ (pick : List String → Nat) (fuel : Nat) (ret l : List String),
      closureGoF bd₁ pick fuel ret l = closureGoF bd₂ pick fuel ret l := by
  intro pick fuel
  induction fuel with
  | zero =>
    intro ret l
    cases l <;> simp [closureGoF]
  | succ fuel ih =>
    intro ret l
    cases l with
    | nil => simp [closureGoF]
    | cons x xs =>
      rw [closureGoF_succ, closureGoF_succ]
      set dep := (x :: xs).getD (min (pick (x :: xs)) ((x :: xs).length - 1)) "" with hdepdef
      by_cases hmem : dep ∈ ret
      · rw [if_pos hmem, if_pos hmem]
        exact ih _ _
      · rw [if_neg hmem, if_neg hmem, h dep]
        cases lookupA bd₂ dep with
        | none => rfl
        | some es => exact ih _ _

/-! ### Graph-builder lemmas -/

theorem mem_updateA_cases {α : Type} {m : List (String × α)} {k : String} {v : α}
    {p : String × α} (h : p ∈ updateA m k v) : p ∈ m ∨ p = (k, v) := by
  unfold updateA at h
  split at h
  · rcases List.mem_map.mp h with ⟨q, hq, hqe⟩
    by_cases hqk : q.1 = k
    · right
      rw [if_pos hqk] at hqe
      exact hqe.symm
    · left
      rw [if_neg hqk] at hqe
      exact hqe ▸ hq
  · rcases List.mem_append.mp h with h1 | h1
    · exact Or.inl h1
    · right
      simpa using h1

theorem processDeps_cons (env : Env) (visited' : List String) (dn dl : String)
    (rest : List (String × String)) (names : List String)
    (locMap : List (String × String)) (rem : List String) :
    processDeps env visited' ((dn, dl) :: rest) (names, locMap, rem) =
      match lookupA locMap dn with
      | none => processDeps env visited' rest
          (addIfNew names dn, locMap ++ [(dn, dl)],
           if dn ∈ visited' then rem else addIfNew rem dn)
      | some prev =>
        if env.sameFile prev dl
        then processDeps env visited' rest
          (addIfNew names dn, locMap,
           if dn ∈ visited' then rem else addIfNew rem dn)
        else Except.error (RunError.conflict dn prev dl) := rfl

theorem processDeps_ok_props (env : Env) (visited' : List String) :
    ∀ (pairs : List (String × String)) (names : List String)
      (locMap : List (String × String)) (rem : List String)
      (names' : List String) (locMap' : List (String × String)) (rem' : List String),
      processDeps env visited' pairs (names, locMap, rem) = Except.ok (names', locMap', rem') →
      (∀ k, k ∈ keysOfA locMap → k ∈ keysOfA locMap') ∧
      (∀ k, k ∈ rem → k ∈ rem') ∧
      ((∀ k ∈ rem, k ∈ keysOfA locMap) → (∀ k ∈ rem', k ∈ keysOfA locMap')) ∧
      (∀ d ∈ names', d ∈ names ∨ d ∈ visited' ∨ d ∈ rem') := by
  intro pairs
  induction pairs with
  | nil =>
    intro names locMap rem names' locMap' rem' h
    simp only [processDeps, Except.ok.injEq, Prod.mk.injEq] at h
    obtain ⟨h1, h2, h3⟩ := h
    subst h1
    subst h2
    subst h3
    exact ⟨fun k hk => hk, fun k hk => hk, fun hs k hk => hs k hk, fun d hd => Or.inl hd⟩
  | cons pr rest ih =>
    intro names locMap rem names' locMap' rem' h
    obtain ⟨dn, dl⟩ := pr
    rw [processDeps_cons] at h
    cases hlk : lookupA locMap dn with
    | none =>
      rw [hlk] at h
      obtain ⟨M1, M2, M3, M4⟩ := ih _ _ _ _ _ _ h
      refine ⟨?_, ?_, ?_, ?_⟩
      · intro k hk
        apply M1
        rw [keysOfA_append]
        exact List.mem_append_left _ hk
      · intro k hk
        apply M2
        split
        · exact hk
        · exact (mem_addIfNew _ _ _).mpr (Or.inl hk)
      · intro hsub k hk
        refine M3 ?_ k hk
        intro k2 hk2
        rw [keysOfA_append]
        by_cases hv : dn ∈ visited'
        · rw [if_pos hv] at hk2
          exact List.mem_append_left _ (hsub k2 hk2)
        · rw [if_neg hv] at hk2
          rcases (mem_addIfNew _ _ _).mp hk2 with h2 | h2
          · exact List.mem_append_left _ (hsub k2 h2)
          · exact List.mem_append_right _ (by simp [keysOfA, h2])
      · intro d hd
        rcases M4 d hd with h1 | h2 | h3
        · rcases (mem_addIfNew _ _ _).mp h1 with hn | hdn
          · exact Or.inl hn
          · subst hdn
            by_cases hv : d ∈ visited'
            · exact Or.inr (Or.inl hv)
            · refine Or.inr (Or.inr (M2 d ?_))
              rw [if_neg hv]
              exact (mem_addIfNew _ _ _).mpr (Or.inr rfl)
        · exact Or.inr (Or.inl h2)
        · exact Or.inr (Or.inr h3)
    | some prev =>
      rw [hlk] at h
      dsimp only at h
      by_cases hsf : env.sameFile prev dl = true
      · rw [if_pos hsf] at h
        obtain ⟨M1, M2, M3, M4⟩ := ih _ _ _ _ _ _ h
        refine ⟨M1, ?_, ?_, ?_⟩
        · intro k hk
          apply M2
          split
          · exact hk
          · exact (mem_addIfNew _ _ _).mpr (Or.inl hk)
        · intro hsub k hk
          refine M3 ?_ k hk
          intro k2 hk2
          by_cases hv : dn ∈ visited'
          · rw [if_pos hv] at hk2
            exact hsub k2 hk2
          · rw [if_neg hv] at hk2
            rcases (mem_addIfNew _ _ _).mp hk2 with h2 | h2
            · exact hsub k2 h2
            · exact h2 ▸ lookupA_mem_keys hlk
        · intro d hd
          rcases M4 d hd with h1 | h2 | h3
          · rcases (mem_addIfNew _ _ _).mp h1 with hn | hdn
            · exact Or.inl hn
            · subst hdn
              by_cases hv : d ∈ visited'
              · exact Or.inr (Or.inl hv)
              · refine Or.inr (Or.inr (M2 d ?_))
                rw [if_neg hv]
                exact (mem_addIfNew _ _ _).mpr (Or.inr rfl)
          · exact Or.inr (Or.inl h2)
          · exact Or.inr (Or.inr h3)
      · rw [if_neg hsf] at h
        exact absurd h (by simp)

theorem buildStep_preserves (env : Env) (pick : List String → Nat) (dirs : List String)
    {st st' : BuildState} (hne : st.remaining ≠ [])
    (hinv : LoopInvariant st) (h : buildStep env pick dirs st = Except.ok st') :
    LoopInvariant st' := by
  obtain ⟨⟨ha, hb⟩, hc, hd⟩ := hinv
  have hlen : 0 < st.remaining.length := List.length_pos.mpr hne
  unfold buildStep at h
  dsimp only at h
  set i := min (pick st.remaining) (st.remaining.length - 1) with hidef
  have hi : i < st.remaining.length := by omega
  set x := st.remaining.getD i "" with hxdef
  set rem1 := st.remaining.eraseIdx i with hrem1def
  by_cases hxv : x ∈ st.visited
  · rw [if_pos hxv] at h
    have hst : ({st with remaining := rem1} : BuildState) = st' := by injection h
    subst hst
    refine ⟨⟨?_, hb⟩, ?_, hd⟩
    · intro p hp d hdm
      rcases ha p hp d hdm with h1 | h2
      · exact Or.inl h1
      · rcases mem_getD_or_eraseIdx _ _ _ hi h2 with heq | hr
        · exact Or.inl (hd _ (heq ▸ hxv))
        · exact Or.inr hr
    · intro k hk
      exact hc k (mem_of_mem_eraseIdx' _ _ _ hk)
  · rw [if_neg hxv] at h
    cases hlkx : lookupA st.locMap x with
    | none =>
      rw [hlkx] at h
      simp at h
    | some xloc =>
      rw [hlkx] at h
      dsimp only at h
      cases hstep : (listDepsStep env xloc dirs).1 with
      | error e =>
        rw [hstep] at h
        simp at h
      | ok depInfo =>
        rw [hstep] at h
        dsimp only at h
        cases hpd : processDeps env (st.visited ++ [x]) depInfo ([], st.locMap, rem1) with
        | error er =>
          rw [hpd] at h
          simp at h
        | ok tr =>
          rw [hpd] at h
          obtain ⟨names, locMap', rem''⟩ := tr
          have hst : (⟨locMap', updateA st.binary_deps x (sortStr names), rem'',
              st.visited ++ [x]⟩ : BuildState) = st' := by injection h
          subst hst
          obtain ⟨M1, M2, M3, M4⟩ :=
            processDeps_ok_props env (st.visited ++ [x]) depInfo [] st.locMap rem1
              names locMap' rem'' hpd
          refine ⟨⟨?_, ?_⟩, ?_, ?_⟩
          · intro p hp d hdm
            rcases mem_updateA_cases hp with hpo | hpe
            · rcases ha p hpo d hdm with h1 | h2
              · exact Or.inl (mem_keys_updateA_of_mem h1)
              · rcases mem_getD_or_eraseIdx _ _ _ hi h2 with heq | hr
                · exact Or.inl (heq ▸ mem_keys_updateA_self _ _ _)
                · exact Or.inr (M2 d hr)
            · subst hpe
              have hdn : d ∈ names := mem_sortStr.mp hdm
              rcases M4 d hdn with h0 | hv | hr
              · exact absurd h0 (List.not_mem_nil d)
              · rcases List.mem_append.mp hv with hv1 | hv2
                · exact Or.inl (mem_keys_updateA_of_mem (hd _ hv1))
                · have : d = x := by simpa using hv2
                  exact Or.inl (this ▸ mem_keys_updateA_self _ _ _)
              · exact Or.inr hr
          · intro k hk
            rcases mem_keys_updateA_cases hk with h1 | h1
            · exact M1 k (hb k h1)
            · exact M1 k (h1 ▸ lookupA_mem_keys hlkx)
          · intro k hk
            refine M3 ?_ k hk
            intro k2 hk2
            exact hc k2 (mem_of_mem_eraseIdx' _ _ _ hk2)
          · intro k hk
            rcases List.mem_append.mp hk with h1 | h1
            · exact mem_keys_updateA_of_mem (hd _ h1)
            · have : k = x := by simpa using h1
              exact this ▸ mem_keys_updateA_self _ _ _

theorem initState_invariant (env : Env) (args : Args) : LoopInvariant (initState env args) := by
  unfold LoopInvariant DepsMapInvariant initState
  refine ⟨⟨?_, ?_⟩, ?_, ?_⟩ <;> simp [keysOfA]

theorem buildLoop_invariant (env : Env) (pick : List String → Nat) (dirs : List String) :
    ∀ (fuel : Nat) (st final : BuildState), LoopInvariant st →
      buildLoop env pick dirs fuel st = some (Except.ok final) →
      LoopInvariant final ∧ final.remaining = [] := by
  intro fuel
  induction fuel with
  | zero =>
    intro st final hinv h
    simp [buildLoop] at h
  | succ fuel ih =>
    intro st final hinv h
    rw [buildLoop] at h
    by_cases hrem : st.remaining = []
    · rw [if_pos hrem] at h
      have hfin : Except.ok st = (Except.ok final : Except RunError BuildState) := by
        injection h
      have hfin2 : st = final := by injection hfin
      subst hfin2
      exact ⟨hinv, hrem⟩
    · rw [if_neg hrem] at h
      cases hstep : buildStep env pick dirs st with
      | error e =>
        rw [hstep] at h
        simp at h
      | ok st' =>
        rw [hstep] at h
        exact ih st' final (buildStep_preserves env pick dirs hrem hinv hstep) h

/-! ### Concrete acyclic graph facts -/

theorem jdAcyc_edges {a b : String} (h : EdgeOf jdAcyc.binary_deps a b) :
    a = "a" ∧ b = "b" := by
  rcases h with ⟨es, hl, hm⟩
  show a = "a" ∧ b = "b"
  have hbd : jdAcyc.binary_deps = [("a", ["b"]), ("b", [])] := rfl
  rw [hbd, lookupA_cons] at hl
  split at hl
  · rename_i ha
    have hes : ["b"] = es := by injection hl
    subst hes
    have hb : b = "b" := by simpa using hm
    exact ⟨ha.symm, hb⟩
  · rw [lookupA_cons] at hl
    split at hl
    · have hes : ([] : List String) = es := by injection hl
      subst hes
      exact absurd hm (List.not_mem_nil b)
    · simp [lookupA] at hl

theorem jdAcyc_no_self : ¬ Relation.TransGen (EdgeOf jdAcyc.binary_deps) "a" "a" := by
  intro h
  have hend : ∀ y, Relation.TransGen (EdgeOf jdAcyc.binary_deps) "a" y → y = "b" := by
    intro y hy
    induction hy with
    | single h1 => exact (jdAcyc_edges h1).2
    | tail hab hbc ih => exact (jdAcyc_edges hbc).2
  exact absurd (hend "a" h) (by decide)

/-! ### Claim theorems -/

/-- C1: whenever a dependency name is resolved a second time to a location
that is not the same underlying file as its already-recorded one
(`os.path.samefile` false), the per-pair processing of `main` aborts with the
conflict error, i.e. `sys.exit(1)`; and every fatally-exiting run of `main`
exits with code 1 having produced no artifacts: no copy into the output
directory, no JSON, no manifest. -/
theorem conflict_aborts_with_no_artifacts :
    (∀ (env : Env) (visited' names rem : List String)
       (locMap : List (String × String)) (dn dl prev : String)
       (rest : List (String × String)),
       lookupA locMap dn = some prev → env.sameFile prev dl = false →
       processDeps env visited' ((dn, dl) :: rest) (names, locMap, rem) =
         Except.error (RunError.conflict dn prev dl)) ∧
    (∀ (env : Env) (pick : List String → Nat) (fuel : Nat) (args : Args)
       (err : RunError) (outs : RunOutputs),
       runMain env pick fuel args = MainResult.exit1 err outs →
       (runMain env pick fuel args).exitCode = some 1 ∧
       outs.copies = [] ∧ outs.jsonOut = none ∧ outs.manifestOut = none) := by
  constructor
  · intro env visited' names rem locMap dn dl prev rest hlk hsf
    rw [processDeps_cons, hlk]
    dsimp only
    rw [if_neg (by rw [hsf]; simp)]
  · intro env pick fuel args err outs h
    have hA : (runMain env pick fuel args).exitCode = some 1 := by rw [h]; rfl
    have houts : outs = emptyOutputs := by
      unfold runMain at h
      dsimp only at h
      repeat' split at h
      all_goals try (injection h with h1 h2; exact h2.symm)
      all_goals exact absurd h (by simp)
    subst houts
    exact ⟨hA, rfl, rfl, rfl⟩

/-- Witness for C1: a concrete conflicting second resolution produces the
conflict error, and a concrete fatally-exiting run has exit code 1 and empty
outputs. -/
theorem conflict_aborts_with_no_artifacts_witness :
    processDeps envBad [] [("a", "q")] ([], [("a", "p")], []) =
      Except.error (RunError.conflict "a" "p" "q") ∧
    ((runMain envBad pickZero 0 args0).exitCode = some 1 ∧
      emptyOutputs.copies = [] ∧ emptyOutputs.jsonOut = none ∧
      emptyOutputs.manifestOut = none) :=
  ⟨conflict_aborts_with_no_artifacts.1 envBad [] [] [] [("a", "p")] "a" "q" "p" [] rfl rfl,
   conflict_aborts_with_no_artifacts.2 envBad pickZero 0 args0 RunError.targetMissing
     emptyOutputs rfl⟩

/-- C2 counterexample: on the fatal-abort path of the per-binary listing step
the search-directory list is NOT restored to its caller-supplied state — the
`pop` on line 175 never runs after `sys.exit(1)`, so the pushed directory
`"DIR"` is still on the list when the process dies. -/
theorem search_dirs_not_restored_on_abort :
    (listDepsStep envBad "/x/b" ["d0"]).2 = ["d0", "DIR"] ∧
    (listDepsStep envBad "/x/b" ["d0"]).1 =
      Except.error "Unexpected line in ldd output: zzz" ∧
    (["d0", "DIR"] : List String) ≠ ["d0"] :=
  ⟨rfl, rfl, by decide⟩

/-- C2 (amended): the per-binary listing step restores the search-directory
list to exactly its caller-supplied state on every successful exit, while on a
fatal-abort exit the pushed directory remains on the list (the process then
terminates, so the leak is never observed). -/
theorem search_dirs_restored_on_success :
    ∀ (env : Env) (binary_path : String) (dirs : List String),
      (∀ deps, (listDepsStep env binary_path dirs).1 = Except.ok deps →
        (listDepsStep env binary_path dirs).2 = dirs) ∧
      (∀ e, (listDepsStep env binary_path dirs).1 = Except.error e →
        (listDepsStep env binary_path dirs).2 = dirs ++ [env.dirname binary_path]) := by
  intro env bp dirs
  constructor
  · intro deps h
    unfold listDepsStep at h ⊢
    dsimp only at h ⊢
    cases hg : get_deps_for_binary env bp (dirs ++ [env.dirname bp]) with
    | error e =>
      rw [hg] at h
      simp at h
    | ok d =>
      show (dirs ++ [env.dirname bp]).dropLast = dirs
      rw [List.dropLast_concat]
  · intro e h
    unfold listDepsStep at h ⊢
    dsimp only at h ⊢
    cases hg : get_deps_for_binary env bp (dirs ++ [env.dirname bp]) with
    | error e2 => rfl
    | ok d =>
      rw [hg] at h
      simp at h

/-- Witness for C2's amended theorem: a successful step hands back the callers
list unchanged; a fatally-aborting step leaves the pushed directory on it. -/
theorem search_dirs_restored_on_success_witness :
    (listDepsStep env0 "t" ["d"]).2 = ["d"] ∧
    (listDepsStep envBad "/x/b" ["d0"]).2 = ["d0"] ++ [envBad.dirname "/x/b"] :=
  ⟨(search_dirs_restored_on_success env0 "t" ["d"]).1 [] rfl,
   (search_dirs_restored_on_success envBad "/x/b" ["d0"]).2
     "Unexpected line in ldd output: zzz" rfl⟩

/-- C3 counterexample: on the cyclic graph a → b → a, whose root `"a"` is
present in the edge map, `get_all_deps_for_binary` returns a set that DOES
contain the root key itself. -/
theorem closure_contains_root_on_cycle :
    get_all_deps_for_binary "a" jdCyc = PyResult.retSet ["b", "a"] ∧
    "a" ∈ (["b", "a"] : List String) ∧ "a" ∈ keysOfA jdCyc.binary_deps :=
  ⟨by decide, by decide, by decide⟩

/-- C3 (amended): the closure result excludes the root key whenever the root
is not reachable from itself through one or more edges (no dependency cycle
through the root); with such a cycle the root is included, as the
counterexample shows. -/
theorem closure_excludes_root_without_self_cycle :
    ∀ (jd : JsonDict) (root : String) (s : List String),
      get_all_deps_for_binary root jd = PyResult.retSet s →
      ¬ Relation.TransGen (EdgeOf jd.binary_deps) root root →
      root ∉ s := by
  intro jd root s h hacy hmem
  unfold get_all_deps_for_binary closureRunWith at h
  cases hr : lookupA jd.binary_deps root with
  | none =>
    rw [hr] at h
    simp at h
  | some es =>
    rw [hr] at h
    dsimp only at h
    cases hres : closureGoF jd.binary_deps popLastIdx (defaultFuel jd root) [] es with
    | ok s2 =>
      rw [hres] at h
      have hs : s2 = s := by injection h
      subst hs
      exact hacy (closureGoF_mem_reach hr hres root hmem)
    | keyError =>
      rw [hres] at h
      simp at h
    | fuelOut =>
      rw [hres] at h
      simp at h

/-- Witness for C3's amended theorem at the acyclic graph a → b. -/
theorem closure_excludes_root_witness : "a" ∉ (["b"] : List String) :=
  closure_excludes_root_without_self_cycle jdAcyc "a" ["b"] rfl jdAcyc_no_self

/-- C4: a parsed entry that survives filtering but whose location resolution
against the search directories fails makes `get_deps_for_binary` abort
fatally, both when ldd reported `not found` and when ldd did report a
location; no such entry is ever returned with an unverified location. -/
theorem unresolved_dependency_is_fatal :
    ∀ (env : Env) (my_name : String) (libsSkip dirs : List String)
      (binary_path rawLine dn dl : String),
      matchLddLine (pythonStrip rawLine) = some (dn, dl) →
      skipEntry my_name libsSkip dn dl = false →
      resolveDep env dirs dn = none →
      processLine env my_name libsSkip dirs binary_path rawLine =
        Except.error (if dl = "not found" then msgNotFound binary_path dn
          else msgUpdatePath dn dl) := by
  intro env my libs dirs bp raw dn dl hm hs hr
  unfold processLine
  dsimp only
  rw [hm]
  dsimp only
  rw [if_neg (by rw [hs]; simp), hr]
  by_cases hdl : dl = "not found"
  · rw [if_pos hdl, if_pos hdl]
  · rw [if_neg hdl, if_neg hdl]

/-- Witness for C4: both fatal branches at concrete unresolvable entries. -/
theorem unresolved_dependency_is_fatal_witness :
    processLine envBad "bin" [] [] "B" "libq.so => not found" =
      Except.error (if ("not found" : String) = "not found" then msgNotFound "B" "libq.so"
        else msgUpdatePath "libq.so" "not found") ∧
    processLine envBad "bin" [] [] "B" "libq.so => /opt/libq.so" =
      Except.error (if ("/opt/libq.so" : String) = "not found" then msgNotFound "B" "libq.so"
        else msgUpdatePath "libq.so" "/opt/libq.so") :=
  ⟨unresolved_dependency_is_fatal envBad "bin" [] [] "B" "libq.so => not found" "libq.so"
      "not found" (by decide) (by decide) rfl,
   unresolved_dependency_is_fatal envBad "bin" [] [] "B" "libq.so => /opt/libq.so" "libq.so"
      "/opt/libq.so" (by decide) (by decide) rfl⟩

/-- C5: every raw ldd output line is either matched as a resolved
`name => location` entry, silently ignored as a benign skip line
(virtual/dynamic-linker pseudo-entry or statically-linked marker), or makes
the run abort fatally with the descriptive `Unexpected line` error; no
unmatched non-skip line is ever silently dropped. -/
theorem ldd_line_classification :
    ∀ (env : Env) (my_name : String) (libsSkip dirs : List String)
      (binary_path rawLine : String),
      (∃ dn dl, matchLddLine (pythonStrip rawLine) = some (dn, dl)) ∨
      (matchLddLine (pythonStrip rawLine) = none ∧
        benignSkipLine (pythonStrip rawLine) = true ∧
        processLine env my_name libsSkip dirs binary_path rawLine = Except.ok none) ∨
      (matchLddLine (pythonStrip rawLine) = none ∧
        benignSkipLine (pythonStrip rawLine) = false ∧
        processLine env my_name libsSkip dirs binary_path rawLine =
          Except.error ("Unexpected line in ldd output: " ++ pythonStrip rawLine)) := by
  intro env my libs dirs bp raw
  cases hm : matchLddLine (pythonStrip raw) with
  | some p =>
    exact Or.inl ⟨p.1, p.2, rfl⟩
  | none =>
    cases hb : benignSkipLine (pythonStrip raw) with
    | true =>
      refine Or.inr (Or.inl ⟨rfl, rfl, ?_⟩)
      unfold processLine
      dsimp only
      rw [hm]
      dsimp only
      rw [if_pos hb]
    | false =>
      refine Or.inr (Or.inr ⟨rfl, rfl, ?_⟩)
      unfold processLine
      dsimp only
      rw [hm]
      dsimp only
      rw [if_neg (by rw [hb]; simp)]

/-- C6: a parsed entry whose name equals the listed binary's own name (its
base file name, i.e. its key) or whose raw reported location contains a
Windows system path or a configured system-library name produces no pair —
the line contributes nothing to the accumulated dependency set, hence no edge
and no location-map entry downstream. -/
theorem skip_entries_contribute_nothing :
    ∀ (env : Env) (my_name : String) (libsSkip dirs : List String)
      (binary_path rawLine dn dl : String),
      matchLddLine (pythonStrip rawLine) = some (dn, dl) →
      skipEntry my_name libsSkip dn dl = true →
      processLine env my_name libsSkip dirs binary_path rawLine = Except.ok none ∧
      (∀ (rest : List String) (acc : List (String × String)),
        depsLoop env my_name libsSkip dirs binary_path acc (rawLine :: rest) =
          depsLoop env my_name libsSkip dirs binary_path acc rest) := by
  intro env my libs dirs bp raw dn dl hm hs
  have hp : processLine env my libs dirs bp raw = Except.ok none := by
    unfold processLine
    dsimp only
    rw [hm]
    dsimp only
    rw [if_pos hs]
  refine ⟨hp, ?_⟩
  intro rest acc
  simp only [depsLoop]
  rw [hp]

/-- Witness for C6: a system library reported under `/lib` is skipped and its
line leaves the accumulator untouched. -/
theorem skip_entries_contribute_nothing_witness :
    processLine env0 "bin" (system_libs_to_skip "linux") [] "B"
      "libc.so.6 => /lib/libc.so.6 (0x1)" = Except.ok none ∧
    depsLoop env0 "bin" (system_libs_to_skip "linux") [] "B" []
        ["libc.so.6 => /lib/libc.so.6 (0x1)"] =
      depsLoop env0 "bin" (system_libs_to_skip "linux") [] "B" [] [] := by
  obtain ⟨h1, h2⟩ := skip_entries_contribute_nothing env0 "bin"
    (system_libs_to_skip "linux") [] "B" "libc.so.6 => /lib/libc.so.6 (0x1)"
    "libc.so.6" "/lib/libc.so.6" (by decide) (by decide)
  exact ⟨h1, h2 [] []⟩

/-- C7: the dependency-graph invariant — every key in any edge list of
`binary_deps` is itself a key of `binary_deps` or pending in the work queue,
and every key of `binary_deps` has a location entry — holds at the start of
the loop, is preserved by every loop iteration, and therefore holds at
termination, when the pending queue is empty. -/
theorem graph_builder_invariant :
    (∀ (env : Env) (args : Args), LoopInvariant (initState env args)) ∧
    (∀ (env : Env) (pick : List String → Nat) (dirs : List String) (st st' : BuildState),
      st.remaining ≠ [] → LoopInvariant st →
      buildStep env pick dirs st = Except.ok st' → LoopInvariant st') ∧
    (∀ (env : Env) (pick : List String → Nat) (dirs : List String) (fuel : Nat)
      (st final : BuildState), LoopInvariant st →
      buildLoop env pick dirs fuel st = some (Except.ok final) →
      DepsMapInvariant final ∧ final.remaining = []) := by
  refine ⟨initState_invariant, ?_, ?_⟩
  · intro env pick dirs st st' hne hinv h
    exact buildStep_preserves env pick dirs hne hinv h
  · intro env pick dirs fuel st final hinv h
    obtain ⟨hfi, hfr⟩ := buildLoop_invariant env pick dirs fuel st final hinv h
    exact ⟨hfi.1, hfr⟩

/-- Witness for C7: the invariant holds for a concrete initial state, and a
concrete two-iteration run ends with the invariant and an empty queue. -/
theorem graph_builder_invariant_witness :
    LoopInvariant (initState env0 args0) ∧
    (DepsMapInvariant ⟨[("t", "t")], [("t", [])], [], ["t"]⟩ ∧
      (⟨[("t", "t")], [("t", [])], [], ["t"]⟩ : BuildState).remaining = []) :=
  ⟨graph_builder_invariant.1 env0 args0,
   graph_builder_invariant.2.2 env0 pickZero [] 2 (initState env0 args0) _
     (graph_builder_invariant.1 env0 args0) rfl⟩

/-- C8: for every closed acyclic dependency graph whose root key is present,
the transitive-closure computation returns exactly the set of keys reachable
from the root by following edges transitively, and any run of the work loop —
any pop order, any sufficient fuel — yields the same set. -/
theorem closure_reachability_order_independent :
    ∀ (jd : JsonDict) (root : String) (es : List String),
      ClosedB jd.binary_deps = true → AcyclicB jd.binary_deps = true →
      lookupA jd.binary_deps root = some es →
      ∃ s, get_all_deps_for_binary root jd = PyResult.retSet s ∧
        (∀ k, k ∈ s ↔ Relation.TransGen (EdgeOf jd.binary_deps) root k) ∧
        (∀ (pick : List String → Nat) (fuel : Nat) (s₂ : List String),
          defaultFuel jd root ≤ fuel →
          closureRunWith pick fuel root jd = PyResult.retSet s₂ →
          s₂.toFinset = s.toFinset) := by
  intro jd root es hc hacy hroot
  obtain ⟨s, hs, hmem⟩ := closureRun_char hc hroot popLastIdx (defaultFuel jd root) le_rfl
  refine ⟨s, hs, hmem, ?_⟩
  intro pick fuel s₂ hf h2
  obtain ⟨s₃, hs₃, hmem₃⟩ := closureRun_char hc hroot pick fuel hf
  rw [h2] at hs₃
  have hq : s₂ = s₃ := by injection hs₃
  subst hq
  ext a
  simp only [List.mem_toFinset]
  exact (hmem₃ a).trans (hmem a).symm

/-- Witness for C8 at the closed acyclic graph a → b. -/
theorem closure_reachability_order_independent_witness :
    ClosedB jdAcyc.binary_deps = true ∧ AcyclicB jdAcyc.binary_deps = true ∧
    (∃ s, get_all_deps_for_binary "a" jdAcyc = PyResult.retSet s ∧
      (∀ k, k ∈ s ↔ Relation.TransGen (EdgeOf jdAcyc.binary_deps) "a" k) ∧
      (∀ (pick : List String → Nat) (fuel : Nat) (s₂ : List String),
        defaultFuel jdAcyc "a" ≤ fuel →
        closureRunWith pick fuel "a" jdAcyc = PyResult.retSet s₂ →
        s₂.toFinset = s.toFinset)) :=
  ⟨by decide, by decide,
   closure_reachability_order_independent jdAcyc "a" ["b"] (by decide) (by decide) rfl⟩

/-- C9: serializing the graph to the JSON shape (both mappings key-sorted, as
`json.dump(..., sort_keys=True)` emits them) and recomputing the transitive
closure of any root from the deserialized structure yields the same result as
computing it from the in-memory graph, for every graph with duplicate-free
keys (every dict has such keys). -/
theorem json_roundtrip_closure :
    ∀ (jd : JsonDict) (root : String), (keysOfA jd.binary_deps).Nodup →
      get_all_deps_for_binary root (serializeJson jd) = get_all_deps_for_binary root jd := by
  intro jd root hnd
  have hperm : List.Perm (sortByKey jd.binary_deps) jd.binary_deps := perm_sortByKey _
  have hlook : ∀ k, lookupA (sortByKey jd.binary_deps) k = lookupA jd.binary_deps k :=
    lookupA_perm_nodup hperm hnd
  have hbd : (serializeJson jd).binary_deps = sortByKey jd.binary_deps := rfl
  have hfuel : defaultFuel (serializeJson jd) root = defaultFuel jd root := by
    unfold defaultFuel
    rw [hbd, hlook root, maxE_perm hperm]
    have hlen : (keysOfA (sortByKey jd.binary_deps)).length =
        (keysOfA jd.binary_deps).length := by
      simp [keysOfA, hperm.length_eq]
    rw [hlen]
  unfold get_all_deps_for_binary closureRunWith
  rw [hbd, hlook root, hfuel]
  cases hr : lookupA jd.binary_deps root with
  | none => rfl
  | some es =>
    dsimp only
    rw [closureGoF_congr hlook popLastIdx (defaultFuel jd root) [] es]

/-- Witness for C9 at a concrete graph with unsorted keys. -/
theorem json_roundtrip_closure_witness :
    get_all_deps_for_binary "a" (serializeJson jdCyc) = get_all_deps_for_binary "a" jdCyc :=
  json_roundtrip_closure jdCyc "a" (by decide)

/-- C10: the closure computation is total only on graphs closed under their
own edge lists — a root absent from the edge map yields `None` without any
exception, while a present root with some transitively-reachable key absent
from the edge map makes the unguarded `json_dict["binary_deps"][dep]` lookup
raise `KeyError` instead of returning `None` or a set. -/
theorem closure_totality_boundary :
    (∀ (jd : JsonDict) (root : String), lookupA jd.binary_deps root = none →
      get_all_deps_for_binary root jd = PyResult.retNone) ∧
    (∀ (jd : JsonDict) (root k : String), root ∈ keysOfA jd.binary_deps →
      Relation.TransGen (EdgeOf jd.binary_deps) root k →
      k ∉ keysOfA jd.binary_deps →
      get_all_deps_for_binary root jd = PyResult.keyError) := by
  constructor
  · intro jd root h
    unfold get_all_deps_for_binary closureRunWith
    rw [h]
  · intro jd root k hroot htg hk
    rcases lookupA_isSome_of_mem_keys hroot with ⟨es, hes⟩
    unfold get_all_deps_for_binary closureRunWith
    rw [hes]
    dsimp only
    cases hres : closureGoF jd.binary_deps popLastIdx (defaultFuel jd root) [] es with
    | ok s =>
      exfalso
      have hkmem : k ∈ s := closureGoF_reach_mem hes hres k htg
      obtain ⟨P1, P2, P3, P4⟩ := closureGoF_ok_props jd.binary_deps popLastIdx
        (defaultFuel jd root) [] es s
        (by intro d hd; exact absurd hd (List.not_mem_nil d))
        (by intro d hd; exact absurd hd (List.not_mem_nil d)) hres
      exact hk (P4 k hkmem)
    | keyError => rfl
    | fuelOut =>
      exfalso
      have hmeas : ((keysOfA jd.binary_deps).toFinset \ ([] : List String).toFinset).card *
          (maxE jd.binary_deps + 1) + es.length ≤ defaultFuel jd root := by
        have h1 : ((keysOfA jd.binary_deps).toFinset \ ([] : List String).toFinset).card
            ≤ (keysOfA jd.binary_deps).length := by
          simp only [List.toFinset_nil, Finset.sdiff_empty]
          exact List.toFinset_card_le _
        have h2 : defaultFuel jd root = (keysOfA jd.binary_deps).length *
            (maxE jd.binary_deps + 1) + es.length := by
          unfold defaultFuel
          rw [hes]
          rfl
        rw [h2]
        exact Nat.add_le_add_right (Nat.mul_le_mul_right _ h1) _
      exact closureGoF_not_fuelOut jd.binary_deps popLastIdx (defaultFuel jd root) [] es
        hmeas hres

/-- Witness for C10: the empty graph returns `None` for any root; the
non-closed graph a → b (with `b` missing from the edge map) raises. -/
theorem closure_totality_boundary_witness :
    get_all_deps_for_binary "x" (⟨[], []⟩ : JsonDict) = PyResult.retNone ∧
    get_all_deps_for_binary "a" (⟨[("a", ["b"])], []⟩ : JsonDict) = PyResult.keyError :=
  ⟨closure_totality_boundary.1 ⟨[], []⟩ "x" rfl,
   closure_totality_boundary.2 ⟨[("a", ["b"])], []⟩ "a" "b" (by decide)
     (Relation.TransGen.single ⟨["b"], rfl, by decide⟩) (by decide)⟩
